import Mathlib

/-!
Shallow embedding of the repository's two source files:

* `0x01-Basic_authentication/api/v1/auth/basic_auth.py` — class `BasicAuth`
  with the five-stage Basic-authentication pipeline
  (`extract_base64_authorization_header`, `decode_base64_authorization_header`,
  `extract_user_credentials`, `user_object_from_credentials`, `current_user`);
* `0x00-personal_data/filtered_logger.py` — `filter_datum`, a single
  `re.sub` call.

Python strings are modelled as `List Char`; an argument that may be `None`,
a `str`, or a value of any other type is modelled by `PyVal`.  Every
function is a total Lean function; a Python `return None` (including an
exception caught and converted to `None`) is `Option.none`.  The external
user store (`models.user.User`, not part of the two source files) is an
abstract parameter: a search function `List Char → Option (List User)`
whose `Option.none` result models `User.search` raising, together with a
boolean password predicate on each `User`.
-/

/-- A Python argument: `None`, a `str`, or a value of any other type. -/
inductive PyVal where
  | none
  | str (s : List Char)
  | other
deriving DecidableEq

/-- BasicAuth.extract_base64_authorization_header: `None` or a non-string
argument yields `None`; a string lacking the literal 6-character prefix
yields `None`; otherwise the Python slice `[6:]`, i.e. the characters after
the first 6, are returned.  `startswith('Basic ')` is modelled as equality
of the first-6-characters slice with the prefix. -/
def extract_base64_authorization_header : PyVal → Option (List Char)
  | PyVal.none => Option.none
  | PyVal.other => Option.none
  | PyVal.str s =>
      if s.take 6 = "Basic ".data then some (s.drop 6) else Option.none

/-- The base64 alphabet value of a character (CPython `table_a2b_base64`):
`A`–`Z` ↦ 0–25, `a`–`z` ↦ 26–51, `0`–`9` ↦ 52–61, `+` ↦ 62, `/` ↦ 63,
anything else has no value. -/
def b64decodeChar (c : Char) : Option Nat :=
  if 'A' ≤ c ∧ c ≤ 'Z' then some (c.toNat - 65)
  else if 'a' ≤ c ∧ c ≤ 'z' then some (c.toNat - 97 + 26)
  else if '0' ≤ c ∧ c ≤ '9' then some (c.toNat - 48 + 52)
  else if c = '+' then some 62
  else if c = '/' then some 63
  else Option.none

/-- The character encoding a 6-bit value (CPython `table_b2a_base64`). -/
def b64encodeChar (n : Nat) : Char :=
  Char.ofNat
    (if n < 26 then 65 + n
     else if n < 52 then 97 + (n - 26)
     else if n < 62 then 48 + (n - 52)
     else if n = 62 then 43 else 47)

/-- CPython `binascii.a2b_base64` in its default non-strict mode
(`base64.b64decode(s)` with `validate=False`), as a state machine over the
input characters.  State: `qp` is `quad_pos` (position in the current
4-character group), `left` is `leftchar` (the pending bits, kept as the
natural number the C code keeps in its low bits), `pads` counts the
padding characters seen since the last data character, `acc` holds the
output bytes in reverse.  Non-alphabet characters are skipped; a `=` only
counts once `quad_pos ≥ 2` and decoding stops successfully when
`quad_pos + pads` reaches 4; at the end of input `quad_pos ≠ 0` is an
error (`Incorrect padding` / data length 1 more than a multiple of 4).
The C shifts/masks/ors on disjoint bit ranges are written as the
equivalent `*`, `/`, `%`, `+` on `Nat`. -/
def b64decodeLoop : List Char → Nat → Nat → Nat → List Nat → Option (List Nat)
  | [], qp, _, _, acc => if qp = 0 then some acc.reverse else Option.none
  | c :: rest, qp, left, pads, acc =>
      if c = '=' then
        if 2 ≤ qp then
          if 4 ≤ qp + (pads + 1) then some acc.reverse
          else b64decodeLoop rest qp left (pads + 1) acc
        else b64decodeLoop rest qp left pads acc
      else
        match b64decodeChar c with
        | Option.none => b64decodeLoop rest qp left pads acc
        | some v =>
            match qp with
            | 0 => b64decodeLoop rest 1 v 0 acc
            | 1 => b64decodeLoop rest 2 (v % 16) 0 ((left * 4 + v / 16) :: acc)
            | 2 => b64decodeLoop rest 3 (v % 4) 0 ((left * 16 + v / 4) :: acc)
            | _ => b64decodeLoop rest 0 0 0 ((left * 64 + v) :: acc)

/-- `base64.b64decode` on a `str` argument: the string is first encoded as
ASCII (`_bytes_from_decode_data`; a non-ASCII character raises, caught by
the caller), then fed to the `a2b_base64` state machine. -/
def b64decodePy (s : List Char) : Option (List Nat) :=
  if s.all (fun c => c.toNat < 128) then b64decodeLoop s 0 0 0 []
  else Option.none

/-- Strict UTF-8 decoding of a byte sequence (`bytes.decode('utf-8')`),
following the Unicode well-formed-sequence table: rejects continuation
bytes out of place, overlong encodings (`C0`/`C1` starters, `E0 80`–`E0 9F`,
`F0 80`–`F0 8F`), surrogates (`ED A0`–`ED BF`), code points above
`U+10FFFF` (`F4 90`– and `F5`–`FF` starters), and truncated sequences. -/
def utf8Decode : List Nat → Option (List Char)
  | [] => some []
  | b0 :: rest =>
      if b0 < 128 then
        (utf8Decode rest).map (fun l => Char.ofNat b0 :: l)
      else if b0 < 194 then Option.none
      else if b0 < 224 then
        match rest with
        | [] => Option.none
        | b1 :: rest2 =>
            if 128 ≤ b1 ∧ b1 < 192 then
              (utf8Decode rest2).map
                (fun l => Char.ofNat ((b0 - 192) * 64 + (b1 - 128)) :: l)
            else Option.none
      else if b0 < 240 then
        match rest with
        | [] => Option.none
        | b1 :: rest2 =>
            match rest2 with
            | [] => Option.none
            | b2 :: rest3 =>
                if (if b0 = 224 then 160 ≤ b1 ∧ b1 < 192
                    else if b0 = 237 then 128 ≤ b1 ∧ b1 < 160
                    else 128 ≤ b1 ∧ b1 < 192) ∧ 128 ≤ b2 ∧ b2 < 192 then
                  (utf8Decode rest3).map
                    (fun l =>
                      Char.ofNat
                        ((b0 - 224) * 4096 + (b1 - 128) * 64 + (b2 - 128)) :: l)
                else Option.none
      else if b0 < 245 then
        match rest with
        | [] => Option.none
        | b1 :: rest2 =>
            match rest2 with
            | [] => Option.none
            | b2 :: rest3 =>
                match rest3 with
                | [] => Option.none
                | b3 :: rest4 =>
                    if (if b0 = 240 then 144 ≤ b1 ∧ b1 < 192
                        else if b0 = 244 then 128 ≤ b1 ∧ b1 < 144
                        else 128 ≤ b1 ∧ b1 < 192) ∧
                        (128 ≤ b2 ∧ b2 < 192) ∧ 128 ≤ b3 ∧ b3 < 192 then
                      (utf8Decode rest4).map
                        (fun l =>
                          Char.ofNat
                            ((b0 - 240) * 262144 + (b1 - 128) * 4096 +
                              (b2 - 128) * 64 + (b3 - 128)) :: l)
                    else Option.none
      else Option.none

/-- BasicAuth.decode_base64_authorization_header: `None`/non-string yields
`None`; `base64.b64decode` then `.decode('utf-8')` inside
`try ... except Exception: return None`. -/
def decode_base64_authorization_header : PyVal → Option (List Char)
  | PyVal.none => Option.none
  | PyVal.other => Option.none
  | PyVal.str s =>
      match b64decodePy s with
      | Option.none => Option.none
      | some bytes =>
          match utf8Decode bytes with
          | Option.none => Option.none
          | some chars => some chars

/-- Helper for `str.split(':', 1)` guarded by `':' not in s`: returns
the characters before the first colon and the characters after it, or
`Option.none` when the string has no colon. -/
def splitFirstColon : List Char → Option (List Char × List Char)
  | [] => Option.none
  | c :: rest =>
      if c = ':' then some ([], rest)
      else (splitFirstColon rest).map (fun p => (c :: p.1, p.2))

/-- BasicAuth.extract_user_credentials: `None`/non-string yields
`(None, None)`; a string without a colon yields `(None, None)`; otherwise
`s.split(':', 1)` gives the part before the first colon and everything
after it. -/
def extract_user_credentials : PyVal → Option (List Char) × Option (List Char)
  | PyVal.none => (Option.none, Option.none)
  | PyVal.other => (Option.none, Option.none)
  | PyVal.str s =>
      match splitFirstColon s with
      | Option.none => (Option.none, Option.none)
      | some p => (some p.1, some p.2)

/-- A principal of the external user store: opaque except for its
`is_valid_password` predicate (spec §6: a pure boolean check that never
fails). -/
structure User where
  is_valid_password : List Char → Bool

/-- The `for user in users: if user.is_valid_password(user_pwd): return user`
loop of `BasicAuth.user_object_from_credentials`: first candidate, in store
order, whose password check succeeds. -/
def firstValidUser : List User → List Char → Option User
  | [], _ => Option.none
  | u :: rest, pwd =>
      if u.is_valid_password pwd then some u else firstValidUser rest pwd

/-- BasicAuth.user_object_from_credentials: `None`/non-string arguments
yield `None`; a store search that raises (modelled by the search function
returning `Option.none`) is absorbed to `None`; otherwise the first
candidate passing the password check is returned, `None` if none passes. -/
def user_object_from_credentials (search : List Char → Option (List User)) :
    PyVal → PyVal → Option User
  | PyVal.str e, PyVal.str p =>
      match search e with
      | Option.none => Option.none
      | some users => firstValidUser users p
  | _, _ => Option.none

/-- A request object, opaque except for header lookup (spec §3, §6).  The
looked-up value is a `PyVal` so that absent (`None`) and ill-typed header
values are representable. -/
structure Request where
  getHeader : String → PyVal

/-- Modelled from the spec: `Auth.authorization_header` (file
`api/v1/auth/auth.py`, not under the sources) — spec §4.1 `headerValue`:
"returns the raw value of the request's `Authorization` header, or none if
absent", and none for a `None` request. -/
def authorization_header : Option Request → PyVal
  | Option.none => PyVal.none
  | some req => req.getHeader "Authorization"

/-- BasicAuth.current_user: the five-stage orchestration.  `None` request →
`None`; absent header → `None`; then extract, decode, split, each
short-circuiting on `None`; finally resolve against the store. -/
def current_user (search : List Char → Option (List User))
    (request : Option Request) : Option User :=
  match request with
  | Option.none => Option.none
  | some req =>
      match authorization_header (some req) with
      | PyVal.none => Option.none
      | hdr =>
          match extract_base64_authorization_header hdr with
          | Option.none => Option.none
          | some encoded =>
              match decode_base64_authorization_header (PyVal.str encoded) with
              | Option.none => Option.none
              | some decoded =>
                  match extract_user_credentials (PyVal.str decoded) with
                  | (some e, some p) =>
                      user_object_from_credentials search (PyVal.str e) (PyVal.str p)
                  | _ => Option.none

/-- The credential pair a request's `Authorization` header carries: the
composition of stages 1–3 of the pipeline (extract, decode, split), used to
state what "the password extracted from the request's credential header"
means. -/
def requestCredentials (request : Option Request) :
    Option (List Char) × Option (List Char) :=
  match request with
  | Option.none => (Option.none, Option.none)
  | some req =>
      match extract_base64_authorization_header (authorization_header (some req)) with
      | Option.none => (Option.none, Option.none)
      | some encoded =>
          match decode_base64_authorization_header (PyVal.str encoded) with
          | Option.none => (Option.none, Option.none)
          | some decoded => extract_user_credentials (PyVal.str decoded)

/-! ### Helper lemmas for the pipeline stages -/

theorem splitFirstColon_append (u v : List Char) (h : ':' ∉ u) :
    splitFirstColon (u ++ ':' :: v) = some (u, v) := by
  induction u with
  | nil => simp [splitFirstColon]
  | cons c u ih =>
      simp only [List.mem_cons, not_or] at h
      obtain ⟨h1, h2⟩ := h
      have hc : ¬c = ':' := fun hh => h1 hh.symm
      simp [splitFirstColon, hc, ih h2]

theorem splitFirstColon_eq_none (s : List Char) (h : ':' ∉ s) :
    splitFirstColon s = Option.none := by
  induction s with
  | nil => rfl
  | cons c s ih =>
      simp only [List.mem_cons, not_or] at h
      obtain ⟨h1, h2⟩ := h
      have hc : ¬c = ':' := fun hh => h1 hh.symm
      simp only [splitFirstColon, if_neg hc, ih h2, Option.map_none']

theorem firstValidUser_valid (users : List User) (p : List Char) (u : User)
    (h : firstValidUser users p = some u) : u.is_valid_password p = true := by
  induction users with
  | nil => exact absurd h (by simp [firstValidUser])
  | cons w users ih =>
      by_cases hw : w.is_valid_password p = true
      · simp only [firstValidUser, if_pos hw, Option.some.injEq] at h
        exact h ▸ hw
      · simp only [firstValidUser, if_neg hw] at h
        exact ih h

theorem firstValidUser_none (users : List User) (p : List Char)
    (h : ∀ u ∈ users, u.is_valid_password p = false) :
    firstValidUser users p = Option.none := by
  induction users with
  | nil => rfl
  | cons w users ih =>
      have hw := h w (by simp)
      simp only [firstValidUser, hw, Bool.false_eq_true, if_false]
      exact ih (fun u hu => h u (by simp [hu]))

theorem firstValidUser_first (l : List User) (u : User) (r : List User)
    (p : List Char) (hl : ∀ w ∈ l, w.is_valid_password p = false)
    (hu : u.is_valid_password p = true) :
    firstValidUser (l ++ u :: r) p = some u := by
  induction l with
  | nil => simp [firstValidUser, hu]
  | cons w l ih =>
      have hw := hl w (by simp)
      simp only [List.cons_append, firstValidUser, hw, Bool.false_eq_true,
        if_false]
      exact ih (fun x hx => hl x (by simp [hx]))

/-! ### C1, C4, C6, C7, C8, C9 -/

/-- C1: every pipeline stage is a total function (it is defined as a plain
Lean function, so it terminates and has no exception channel), and on a
malformed argument — `None` or a non-string value, and the `None` request
for `current_user` — each stage returns its `none` sentinel
(`(none, none)` for `extract_user_credentials`). -/
theorem pipeline_total_and_absorbs_malformed
    (search : List Char → Option (List User)) (v w : PyVal)
    (hv : v = PyVal.none ∨ v = PyVal.other) :
    extract_base64_authorization_header v = Option.none ∧
    decode_base64_authorization_header v = Option.none ∧
    extract_user_credentials v = (Option.none, Option.none) ∧
    user_object_from_credentials search v w = Option.none ∧
    user_object_from_credentials search w v = Option.none ∧
    current_user search Option.none = Option.none := by
  rcases hv with rfl | rfl <;>
    exact ⟨rfl, rfl, rfl, by cases w <;> rfl, by cases w <;> rfl, rfl⟩

/-- C1 witness: the malformed-input sentinels at concrete inputs. -/
theorem pipeline_total_and_absorbs_malformed_witness :
    extract_base64_authorization_header PyVal.none = Option.none ∧
    decode_base64_authorization_header PyVal.none = Option.none ∧
    extract_user_credentials PyVal.none = (Option.none, Option.none) ∧
    user_object_from_credentials (fun _ => some []) PyVal.none PyVal.other =
      Option.none ∧
    user_object_from_credentials (fun _ => some []) PyVal.other PyVal.none =
      Option.none ∧
    current_user (fun _ => some []) Option.none = Option.none :=
  pipeline_total_and_absorbs_malformed (fun _ => some []) PyVal.none
    PyVal.other (Or.inl rfl)

/-- C4: `extract_base64_authorization_header` returns `none` exactly when
the argument is `None`, not a string, or does not start with the
case-sensitive 6-character prefix; on a string with the prefix it
returns the characters after the first 6. -/
theorem extractToken_prefix_spec (s : List Char) :
    (¬ "Basic ".data <+: s →
      extract_base64_authorization_header (PyVal.str s) = Option.none) ∧
    ("Basic ".data <+: s →
      extract_base64_authorization_header (PyVal.str s) = some (s.drop 6)) ∧
    extract_base64_authorization_header PyVal.none = Option.none ∧
    extract_base64_authorization_header PyVal.other = Option.none := by
  have hlen : ("Basic ".data).length = 6 := rfl
  have hiff : "Basic ".data <+: s ↔ s.take 6 = "Basic ".data := by
    rw [List.prefix_iff_eq_take, hlen, eq_comm]
  refine ⟨fun h => ?_, fun h => ?_, rfl, rfl⟩
  · simp only [extract_base64_authorization_header,
      if_neg (fun hh => h (hiff.mpr hh))]
  · simp only [extract_base64_authorization_header, if_pos (hiff.mp h)]

/-- C4 witness: the prefix case and a no-prefix case at concrete strings. -/
theorem extractToken_prefix_spec_witness :
    extract_base64_authorization_header (PyVal.str ("Basic QUJD".data)) =
      some ("QUJD".data) ∧
    extract_base64_authorization_header (PyVal.str ("basic QUJD".data)) =
      Option.none :=
  ⟨(extractToken_prefix_spec ("Basic QUJD".data)).2.1 (by decide),
   (extractToken_prefix_spec ("basic QUJD".data)).1 (by decide)⟩

/-- C6: on a string shaped `u ++ ":" ++ v` whose part `u` before the first
colon is colon-free, `extract_user_credentials` returns `(u, v)` — the
split happens at the first colon only, so `v` may contain further colons —
and on a colon-free string, a `None`, or a non-string it returns
`(none, none)`. -/
theorem splitCredentials_first_colon :
    (∀ u v : List Char, ':' ∉ u →
      extract_user_credentials (PyVal.str (u ++ ':' :: v)) = (some u, some v)) ∧
    (∀ s : List Char, ':' ∉ s →
      extract_user_credentials (PyVal.str s) = (Option.none, Option.none)) ∧
    extract_user_credentials PyVal.none = (Option.none, Option.none) ∧
    extract_user_credentials PyVal.other = (Option.none, Option.none) := by
  refine ⟨fun u v h => ?_, fun s h => ?_, rfl, rfl⟩
  · simp only [extract_user_credentials, splitFirstColon_append u v h]
  · simp only [extract_user_credentials, splitFirstColon_eq_none s h]

/-- C6 witness: the spec's `"aa:bb:cc"` first-colon example and the
no-colon example. -/
theorem splitCredentials_first_colon_witness :
    extract_user_credentials (PyVal.str ("aa:bb:cc".data)) =
      (some ("aa".data), some ("bb:cc".data)) ∧
    extract_user_credentials (PyVal.str ("nocolonhere".data)) =
      (Option.none, Option.none) :=
  ⟨splitCredentials_first_colon.1 ("aa".data) ("bb:cc".data) (by decide),
   splitCredentials_first_colon.2.1 ("nocolonhere".data) (by decide)⟩

/-- C9: `extract_user_credentials` never returns a mixed pair — for every
input it is either a pair of two present strings or exactly
`(none, none)`. -/
theorem splitCredentials_no_mixed_pair (v : PyVal) :
    (∃ a b, extract_user_credentials v = (some a, some b)) ∨
    extract_user_credentials v = (Option.none, Option.none) := by
  cases v with
  | none => exact Or.inr rfl
  | other => exact Or.inr rfl
  | str s =>
      cases h : splitFirstColon s with
      | none => exact Or.inr (by simp [extract_user_credentials, h])
      | some p =>
          exact Or.inl ⟨p.1, p.2, by simp [extract_user_credentials, h]⟩

/-- C7: `user_object_from_credentials` absorbs a failing store search to
`none`; given the searched candidates, it returns `none` when no candidate
passes the password check and the first passing candidate (in store order)
otherwise. -/
theorem resolvePrincipal_first_match
    (search : List Char → Option (List User)) (e p : List Char) :
    (search e = Option.none →
      user_object_from_credentials search (PyVal.str e) (PyVal.str p) =
        Option.none) ∧
    (∀ users, search e = some users →
      ((∀ u ∈ users, u.is_valid_password p = false) →
        user_object_from_credentials search (PyVal.str e) (PyVal.str p) =
          Option.none) ∧
      (∀ l u r, users = l ++ u :: r →
        (∀ w ∈ l, w.is_valid_password p = false) →
        u.is_valid_password p = true →
        user_object_from_credentials search (PyVal.str e) (PyVal.str p) =
          some u)) := by
  constructor
  · intro h
    simp only [user_object_from_credentials, h]
  · intro users h
    constructor
    · intro hall
      simp only [user_object_from_credentials, h, firstValidUser_none users p hall]
    · intro l u r hsplit hl hu
      simp only [user_object_from_credentials, h, hsplit,
        firstValidUser_first l u r p hl hu]

/-- A store principal rejecting every password (for concrete witnesses). -/
def rejectAllUser : User := ⟨fun _ => false⟩

/-- A store principal accepting every password (for concrete witnesses). -/
def acceptAllUser : User := ⟨fun _ => true⟩

/-- C7 witness: a failing store yields `none`; a store returning a
rejecting candidate before an accepting one yields the accepting one. -/
theorem resolvePrincipal_first_match_witness :
    user_object_from_credentials (fun _ => Option.none)
      (PyVal.str ("a".data)) (PyVal.str ("b".data)) = Option.none ∧
    user_object_from_credentials (fun _ => some [rejectAllUser, acceptAllUser])
      (PyVal.str ("a".data)) (PyVal.str ("b".data)) = some acceptAllUser :=
  ⟨(resolvePrincipal_first_match (fun _ => Option.none) ("a".data)
      ("b".data)).1 rfl,
   ((resolvePrincipal_first_match (fun _ => some [rejectAllUser, acceptAllUser])
      ("a".data) ("b".data)).2 [rejectAllUser, acceptAllUser] rfl).2
      [rejectAllUser] acceptAllUser [] rfl
      (by intro w hw; cases List.mem_singleton.mp hw; rfl) rfl⟩

/-- C8: `current_user` is `none` for a `None` request and for a request
without an `Authorization` header; the statement is quantified over every
store-search function, so the result does not depend on (and the code does
not consult) the user store in these cases. -/
theorem currentPrincipal_missing_header
    (search : List Char → Option (List User)) :
    current_user search Option.none = Option.none ∧
    ∀ req : Request, req.getHeader "Authorization" = PyVal.none →
      current_user search (some req) = Option.none := by
  refine ⟨rfl, fun req h => ?_⟩
  simp only [current_user, authorization_header, h]

/-- C8 witness: a request whose header lookup always yields `None`. -/
theorem currentPrincipal_missing_header_witness :
    current_user (fun _ => some []) Option.none = Option.none ∧
    current_user (fun _ => some []) (some ⟨fun _ => PyVal.none⟩) =
      Option.none :=
  ⟨(currentPrincipal_missing_header (fun _ => some [])).1,
   (currentPrincipal_missing_header (fun _ => some [])).2
      ⟨fun _ => PyVal.none⟩ rfl⟩

/-- C2: whenever `current_user` returns a principal, the principal's
password check succeeded on the password component of the credentials
carried by the request's `Authorization` header (stages 1–3 of the
pipeline, `requestCredentials`). -/
theorem currentPrincipal_requires_password_check
    (search : List Char → Option (List User)) (request : Option Request)
    (u : User) (h : current_user search request = some u) :
    ∃ e p, requestCredentials request = (some e, some p) ∧
      u.is_valid_password p = true := by
  cases request with
  | none => exact absurd h (by simp [current_user])
  | some req =>
      cases hh : req.getHeader "Authorization" with
      | none => simp [current_user, authorization_header, hh] at h
      | other =>
          simp [current_user, authorization_header, hh,
            extract_base64_authorization_header] at h
      | str s =>
          cases hex : extract_base64_authorization_header (PyVal.str s) with
          | none => simp [current_user, authorization_header, hh, hex] at h
          | some tok =>
              cases hdec : decode_base64_authorization_header (PyVal.str tok) with
              | none =>
                  simp [current_user, authorization_header, hh, hex, hdec] at h
              | some dec =>
                  cases hsp : splitFirstColon dec with
                  | none =>
                      simp [current_user, authorization_header, hh, hex, hdec,
                        extract_user_credentials, hsp] at h
                  | some pr =>
                      have hcred : extract_user_credentials (PyVal.str dec) =
                          (some pr.1, some pr.2) := by
                        simp [extract_user_credentials, hsp]
                      cases hs : search pr.1 with
                      | none =>
                          simp [current_user, authorization_header, hh, hex,
                            hdec, hcred, user_object_from_credentials, hs] at h
                      | some users =>
                          simp only [current_user, authorization_header, hh,
                            hex, hdec, hcred,
                            user_object_from_credentials, hs] at h
                          exact ⟨pr.1, pr.2,
                            by simp only [requestCredentials,
                              authorization_header, hh, hex, hdec, hcred],
                            firstValidUser_valid users pr.2 u h⟩

/-- A demonstration principal whose password check accepts exactly `"b"`. -/
def demoUser : User := ⟨fun p => p == "b".data⟩

/-- A demonstration store holding `demoUser` under the email `"a"`. -/
def demoSearch : List Char → Option (List User) := fun e =>
  if e == "a".data then some [demoUser] else some []

/-- A demonstration request carrying `Basic YTpi`, i.e. base64 of `"a:b"`. -/
def demoRequest : Request := ⟨fun _ => PyVal.str ("Basic YTpi".data)⟩

/-- C2 witness: on the demonstration store and request, `current_user`
returns `demoUser`, so the theorem yields the successful password check on
the extracted password. -/
theorem currentPrincipal_requires_password_check_witness :
    ∃ e p, requestCredentials (some demoRequest) = (some e, some p) ∧
      demoUser.is_valid_password p = true :=
  currentPrincipal_requires_password_check demoSearch (some demoRequest)
    demoUser (by rfl)

/-! ### base64 encoding and the decode-of-encode round trip -/

/-- `base64.b64encode` (CPython `binascii.b2a_base64`): groups of 3 bytes
become 4 alphabet characters; a trailing group of 1 or 2 bytes is padded
with `=`.  Shifts and masks are written as the equivalent `Nat`
arithmetic. -/
def b64encode : List Nat → List Char
  | a :: b :: c :: rest =>
      b64encodeChar (a / 4) :: b64encodeChar ((a % 4) * 16 + b / 16) ::
        b64encodeChar ((b % 16) * 4 + c / 64) :: b64encodeChar (c % 64) ::
        b64encode rest
  | [a, b] =>
      [b64encodeChar (a / 4), b64encodeChar ((a % 4) * 16 + b / 16),
        b64encodeChar ((b % 16) * 4), '=']
  | [a] => [b64encodeChar (a / 4), b64encodeChar ((a % 4) * 16), '=', '=']
  | [] => []

theorem b64_char_roundtrip : ∀ n, n < 64 →
    b64decodeChar (b64encodeChar n) = some n := by decide

theorem b64encodeChar_ne_pad : ∀ n, n < 64 → b64encodeChar n ≠ '=' := by decide

theorem b64encodeChar_ascii : ∀ n, n < 64 → (b64encodeChar n).toNat < 128 := by
  decide

theorem b64decodeLoop_step0 (c : Char) (v : Nat) (rest : List Char)
    (left pads : Nat) (acc : List Nat) (hc : b64decodeChar c = some v)
    (hne : c ≠ '=') :
    b64decodeLoop (c :: rest) 0 left pads acc =
      b64decodeLoop rest 1 v 0 acc := by
  simp only [b64decodeLoop, if_neg hne, hc]

theorem b64decodeLoop_step1 (c : Char) (v : Nat) (rest : List Char)
    (left pads : Nat) (acc : List Nat) (hc : b64decodeChar c = some v)
    (hne : c ≠ '=') :
    b64decodeLoop (c :: rest) 1 left pads acc =
      b64decodeLoop rest 2 (v % 16) 0 ((left * 4 + v / 16) :: acc) := by
  simp only [b64decodeLoop, if_neg hne, hc]

theorem b64decodeLoop_step2 (c : Char) (v : Nat) (rest : List Char)
    (left pads : Nat) (acc : List Nat) (hc : b64decodeChar c = some v)
    (hne : c ≠ '=') :
    b64decodeLoop (c :: rest) 2 left pads acc =
      b64decodeLoop rest 3 (v % 4) 0 ((left * 16 + v / 4) :: acc) := by
  simp only [b64decodeLoop, if_neg hne, hc]

theorem b64decodeLoop_step3 (c : Char) (v : Nat) (rest : List Char)
    (left pads : Nat) (acc : List Nat) (hc : b64decodeChar c = some v)
    (hne : c ≠ '=') :
    b64decodeLoop (c :: rest) 3 left pads acc =
      b64decodeLoop rest 0 0 0 ((left * 64 + v) :: acc) := by
  simp only [b64decodeLoop, if_neg hne, hc]

theorem b64decodeLoop_pad2_first (rest : List Char) (left : Nat)
    (acc : List Nat) :
    b64decodeLoop ('=' :: rest) 2 left 0 acc =
      b64decodeLoop rest 2 left 1 acc := by
  simp [b64decodeLoop]

theorem b64decodeLoop_pad2_second (rest : List Char) (left : Nat)
    (acc : List Nat) :
    b64decodeLoop ('=' :: rest) 2 left 1 acc = some acc.reverse := by
  simp [b64decodeLoop]

theorem b64decodeLoop_pad3 (rest : List Char) (left : Nat) (acc : List Nat) :
    b64decodeLoop ('=' :: rest) 3 left 0 acc = some acc.reverse := by
  simp [b64decodeLoop]

theorem b64decode_encode (bytes : List Nat) (hb : ∀ b ∈ bytes, b < 256) :
    ∀ acc, b64decodeLoop (b64encode bytes) 0 0 0 acc =
      some (acc.reverse ++ bytes) := by
  induction bytes using b64encode.induct with
  | case4 => intro acc; simp [b64encode, b64decodeLoop]
  | case3 a =>
      intro acc
      have ha : a < 256 := hb a (by simp)
      have h1 : a / 4 < 64 := by omega
      have h2 : (a % 4) * 16 < 64 := by omega
      rw [show b64encode [a] =
        [b64encodeChar (a / 4), b64encodeChar ((a % 4) * 16), '=', '='] from
          rfl]
      rw [b64decodeLoop_step0 _ _ _ _ _ _ (b64_char_roundtrip _ h1)
        (b64encodeChar_ne_pad _ h1)]
      rw [b64decodeLoop_step1 _ _ _ _ _ _ (b64_char_roundtrip _ h2)
        (b64encodeChar_ne_pad _ h2)]
      rw [show (a % 4) * 16 % 16 = 0 from by omega]
      rw [show a / 4 * 4 + (a % 4) * 16 / 16 = a from by omega]
      rw [b64decodeLoop_pad2_first, b64decodeLoop_pad2_second]
      simp
  | case2 a b =>
      intro acc
      have ha : a < 256 := hb a (by simp)
      have hbb : b < 256 := hb b (by simp)
      have h1 : a / 4 < 64 := by omega
      have h2 : (a % 4) * 16 + b / 16 < 64 := by omega
      have h3 : (b % 16) * 4 < 64 := by omega
      rw [show b64encode [a, b] =
        [b64encodeChar (a / 4), b64encodeChar ((a % 4) * 16 + b / 16),
          b64encodeChar ((b % 16) * 4), '='] from rfl]
      rw [b64decodeLoop_step0 _ _ _ _ _ _ (b64_char_roundtrip _ h1)
        (b64encodeChar_ne_pad _ h1)]
      rw [b64decodeLoop_step1 _ _ _ _ _ _ (b64_char_roundtrip _ h2)
        (b64encodeChar_ne_pad _ h2)]
      rw [show a / 4 * 4 + ((a % 4) * 16 + b / 16) / 16 = a from by omega]
      rw [show ((a % 4) * 16 + b / 16) % 16 = b / 16 from by omega]
      rw [b64decodeLoop_step2 _ _ _ _ _ _ (b64_char_roundtrip _ h3)
        (b64encodeChar_ne_pad _ h3)]
      rw [show b / 16 * 16 + (b % 16) * 4 / 4 = b from by omega]
      rw [show (b % 16) * 4 % 4 = 0 from by omega]
      rw [b64decodeLoop_pad3]
      simp
  | case1 a b c rest ih =>
      intro acc
      have ha : a < 256 := hb a (by simp)
      have hbb : b < 256 := hb b (by simp)
      have hcc : c < 256 := hb c (by simp)
      have h1 : a / 4 < 64 := by omega
      have h2 : (a % 4) * 16 + b / 16 < 64 := by omega
      have h3 : (b % 16) * 4 + c / 64 < 64 := by omega
      have h4 : c % 64 < 64 := by omega
      rw [show b64encode (a :: b :: c :: rest) =
        b64encodeChar (a / 4) :: b64encodeChar ((a % 4) * 16 + b / 16) ::
          b64encodeChar ((b % 16) * 4 + c / 64) :: b64encodeChar (c % 64) ::
          b64encode rest from rfl]
      rw [b64decodeLoop_step0 _ _ _ _ _ _ (b64_char_roundtrip _ h1)
        (b64encodeChar_ne_pad _ h1)]
      rw [b64decodeLoop_step1 _ _ _ _ _ _ (b64_char_roundtrip _ h2)
        (b64encodeChar_ne_pad _ h2)]
      rw [show a / 4 * 4 + ((a % 4) * 16 + b / 16) / 16 = a from by omega]
      rw [show ((a % 4) * 16 + b / 16) % 16 = b / 16 from by omega]
      rw [b64decodeLoop_step2 _ _ _ _ _ _ (b64_char_roundtrip _ h3)
        (b64encodeChar_ne_pad _ h3)]
      rw [show b / 16 * 16 + ((b % 16) * 4 + c / 64) / 4 = b from by omega]
      rw [show ((b % 16) * 4 + c / 64) % 4 = c / 64 from by omega]
      rw [b64decodeLoop_step3 _ _ _ _ _ _ (b64_char_roundtrip _ h4)
        (b64encodeChar_ne_pad _ h4)]
      rw [show c / 64 * 64 + c % 64 = c from by omega]
      rw [ih (fun x hx => hb x (by simp [hx])) ((c :: b :: a :: acc))]
      simp

theorem b64encode_ascii (bytes : List Nat) (hb : ∀ b ∈ bytes, b < 256) :
    ∀ c ∈ b64encode bytes, c.toNat < 128 := by
  induction bytes using b64encode.induct with
  | case4 => intro c hc; simp [b64encode] at hc
  | case3 a =>
      intro c hc
      have ha : a < 256 := hb a (by simp)
      simp only [b64encode, List.mem_cons, List.not_mem_nil, or_false] at hc
      rcases hc with rfl | rfl | rfl | rfl
      · exact b64encodeChar_ascii _ (by omega)
      · exact b64encodeChar_ascii _ (by omega)
      · decide
      · decide
  | case2 a b =>
      intro c hc
      have ha : a < 256 := hb a (by simp)
      have hbb : b < 256 := hb b (by simp)
      simp only [b64encode, List.mem_cons, List.not_mem_nil, or_false] at hc
      rcases hc with rfl | rfl | rfl | rfl
      · exact b64encodeChar_ascii _ (by omega)
      · exact b64encodeChar_ascii _ (by omega)
      · exact b64encodeChar_ascii _ (by omega)
      · decide
  | case1 a b c rest ih =>
      intro x hx
      have ha : a < 256 := hb a (by simp)
      have hbb : b < 256 := hb b (by simp)
      have hcc : c < 256 := hb c (by simp)
      simp only [b64encode, List.mem_cons] at hx
      rcases hx with rfl | rfl | rfl | rfl | hx
      · exact b64encodeChar_ascii _ (by omega)
      · exact b64encodeChar_ascii _ (by omega)
      · exact b64encodeChar_ascii _ (by omega)
      · exact b64encodeChar_ascii _ (by omega)
      · exact ih (fun y hy => hb y (by simp [hy])) x hx

theorem b64decodePy_encode (bytes : List Nat) (hb : ∀ b ∈ bytes, b < 256) :
    b64decodePy (b64encode bytes) = some bytes := by
  have hall : (b64encode bytes).all (fun c => c.toNat < 128) = true := by
    rw [List.all_eq_true]
    intro c hc
    simpa using b64encode_ascii bytes hb c hc
  rw [b64decodePy, if_pos hall, b64decode_encode bytes hb []]
  rfl

/-! ### UTF-8 encoding and the decode-of-encode round trip -/

/-- UTF-8 encoding of one character (`str.encode('utf-8')`), with shifts
and masks written as `Nat` arithmetic. -/
def utf8EncodeChar (c : Char) : List Nat :=
  if c.toNat < 128 then [c.toNat]
  else if c.toNat < 2048 then [192 + c.toNat / 64, 128 + c.toNat % 64]
  else if c.toNat < 65536 then
    [224 + c.toNat / 4096, 128 + c.toNat / 64 % 64, 128 + c.toNat % 64]
  else
    [240 + c.toNat / 262144, 128 + c.toNat / 4096 % 64,
      128 + c.toNat / 64 % 64, 128 + c.toNat % 64]

/-- UTF-8 encoding of a string. -/
def utf8Encode : List Char → List Nat
  | [] => []
  | c :: l => utf8EncodeChar c ++ utf8Encode l

/-- Every `Char` is a Unicode scalar value: below the surrogates or
strictly between them and `0x110000`. -/
theorem char_valid_ranges (c : Char) :
    c.toNat < 55296 ∨ (57343 < c.toNat ∧ c.toNat < 1114112) := by
  have h := c.valid
  simp only [UInt32.isValidChar, Nat.isValidChar] at h
  exact h

theorem utf8EncodeChar_bytes_lt (c : Char) : ∀ b ∈ utf8EncodeChar c, b < 256 := by
  intro b hb
  have h := char_valid_ranges c
  rw [utf8EncodeChar] at hb
  split_ifs at hb <;> simp only [List.mem_cons, List.not_mem_nil, or_false] at hb
  · omega
  · rcases hb with rfl | rfl <;> omega
  · rcases hb with rfl | rfl | rfl <;> omega
  · rcases hb with rfl | rfl | rfl | rfl <;> omega

theorem utf8Encode_bytes_lt (l : List Char) : ∀ b ∈ utf8Encode l, b < 256 := by
  induction l with
  | nil => intro b hb; simp [utf8Encode] at hb
  | cons c l ih =>
      intro b hb
      rw [utf8Encode] at hb
      rcases List.mem_append.mp hb with h | h
      · exact utf8EncodeChar_bytes_lt c b h
      · exact ih b h

theorem utf8Decode_encodeChar (c : Char) (bs : List Nat) :
    utf8Decode (utf8EncodeChar c ++ bs) =
      (utf8Decode bs).map (fun l => c :: l) := by
  have hval := char_valid_ranges c
  have hofn := Char.ofNat_toNat c
  by_cases h1 : c.toNat < 128
  · rw [show utf8EncodeChar c = [c.toNat] from by rw [utf8EncodeChar, if_pos h1]]
    rw [List.cons_append, List.nil_append, utf8Decode.eq_def]
    dsimp only
    rw [if_pos h1, hofn]
  · by_cases h2 : c.toNat < 2048
    · rw [show utf8EncodeChar c = [192 + c.toNat / 64, 128 + c.toNat % 64] from
        by rw [utf8EncodeChar, if_neg h1, if_pos h2]]
      rw [List.cons_append, List.cons_append, List.nil_append,
        utf8Decode.eq_def]
      dsimp only
      rw [if_neg (by omega), if_neg (by omega), if_pos (by omega)]
      rw [if_pos (by constructor <;> omega)]
      rw [show (192 + c.toNat / 64 - 192) * 64 + (128 + c.toNat % 64 - 128) =
        c.toNat from by omega, hofn]
    · by_cases h3 : c.toNat < 65536
      · rw [show utf8EncodeChar c =
          [224 + c.toNat / 4096, 128 + c.toNat / 64 % 64, 128 + c.toNat % 64]
          from by rw [utf8EncodeChar, if_neg h1, if_neg h2, if_pos h3]]
        rw [List.cons_append, List.cons_append, List.cons_append,
          List.nil_append, utf8Decode.eq_def]
        dsimp only
        rw [if_neg (by omega), if_neg (by omega), if_neg (by omega),
          if_pos (by omega)]
        rw [if_pos ?side]
        case side =>
          refine ⟨?_, by omega, by omega⟩
          split_ifs <;> omega
        rw [show (224 + c.toNat / 4096 - 224) * 4096 +
          (128 + c.toNat / 64 % 64 - 128) * 64 + (128 + c.toNat % 64 - 128) =
          c.toNat from by omega, hofn]
      · rw [show utf8EncodeChar c =
          [240 + c.toNat / 262144, 128 + c.toNat / 4096 % 64,
            128 + c.toNat / 64 % 64, 128 + c.toNat % 64] from
          by rw [utf8EncodeChar, if_neg h1, if_neg h2, if_neg h3]]
        rw [List.cons_append, List.cons_append, List.cons_append,
          List.cons_append, List.nil_append, utf8Decode.eq_def]
        dsimp only
        rw [if_neg (by omega), if_neg (by omega), if_neg (by omega),
          if_neg (by omega), if_pos (by omega)]
        rw [if_pos ?side]
        case side =>
          refine ⟨?_, ⟨by omega, by omega⟩, by omega, by omega⟩
          split_ifs <;> omega
        rw [show (240 + c.toNat / 262144 - 240) * 262144 +
          (128 + c.toNat / 4096 % 64 - 128) * 4096 +
          (128 + c.toNat / 64 % 64 - 128) * 64 + (128 + c.toNat % 64 - 128) =
          c.toNat from by omega, hofn]

theorem utf8_roundtrip (l : List Char) : utf8Decode (utf8Encode l) = some l := by
  induction l with
  | nil => rfl
  | cons c l ih =>
      rw [utf8Encode, utf8Decode_encodeChar, ih]
      rfl

/-! ### C3: encode-then-pipeline round trip -/

/-- C3: for colon-free `user` and `pass`, running extract, decode and split
on the header `"Basic " ++ base64(utf8(user ++ ":" ++ pass))` recovers
exactly `(user, pass)`. -/
theorem pipeline_round_trip (user pass : List Char) (hu : ':' ∉ user)
    (hp : ':' ∉ pass) :
    ∃ tok dec,
      extract_base64_authorization_header
        (PyVal.str
          ("Basic ".data ++ b64encode (utf8Encode (user ++ ':' :: pass)))) =
        some tok ∧
      decode_base64_authorization_header (PyVal.str tok) = some dec ∧
      extract_user_credentials (PyVal.str dec) = (some user, some pass) := by
  clear hp
  refine ⟨b64encode (utf8Encode (user ++ ':' :: pass)), user ++ ':' :: pass,
    ?_, ?_, ?_⟩
  · rw [extract_base64_authorization_header]
    rw [List.take_left' (by rfl), if_pos rfl, List.drop_left' (by rfl)]
  · rw [decode_base64_authorization_header]
    rw [b64decodePy_encode _ (utf8Encode_bytes_lt _)]
    dsimp only
    rw [utf8_roundtrip]
  · rw [extract_user_credentials, splitFirstColon_append user pass hu]

/-- C3 witness: the round trip at `user = "user"`, `pass = "pass"`. -/
theorem pipeline_round_trip_witness :
    ∃ tok dec,
      extract_base64_authorization_header
        (PyVal.str
          ("Basic ".data ++
            b64encode (utf8Encode ("user".data ++ ':' :: "pass".data)))) =
        some tok ∧
      decode_base64_authorization_header (PyVal.str tok) = some dec ∧
      extract_user_credentials (PyVal.str dec) =
        (some ("user".data), some ("pass".data)) :=
  pipeline_round_trip ("user".data) ("pass".data) (by decide) (by decide)

/-! ### C5: failure modes of decode_base64_authorization_header -/

/-- Stepping the base64 state machine over pad-free input: if the quad
position plus the number of remaining alphabet characters is not a
multiple of 4, the machine ends mid-quad and fails. -/
theorem b64decodeLoop_none_of_bad_count :
    ∀ (s : List Char) (qp left pads : Nat) (acc : List Nat), qp ≤ 3 →
      '=' ∉ s →
      (qp + s.countP (fun c => (b64decodeChar c).isSome)) % 4 ≠ 0 →
      b64decodeLoop s qp left pads acc = Option.none := by
  intro s
  induction s with
  | nil =>
      intro qp left pads acc hqp _ hmod
      simp only [List.countP_nil, Nat.add_zero] at hmod
      have : qp ≠ 0 := by omega
      simp [b64decodeLoop, this]
  | cons c s ih =>
      intro qp left pads acc hqp hpad hmod
      simp only [List.mem_cons, not_or] at hpad
      obtain ⟨hc, hs⟩ := hpad
      have hcne : ¬c = '=' := fun hh => hc hh.symm
      cases hv : b64decodeChar c with
      | none =>
          rw [List.countP_cons_of_neg _ _ (by simp [hv])] at hmod
          simp only [b64decodeLoop, if_neg hcne, hv]
          exact ih qp left pads acc hqp hs hmod
      | some v =>
          rw [List.countP_cons_of_pos _ _ (by simp [hv])] at hmod
          interval_cases qp
          · rw [b64decodeLoop_step0 _ _ _ _ _ _ hv hcne]
            exact ih 1 v 0 acc (by omega) hs (by omega)
          · rw [b64decodeLoop_step1 _ _ _ _ _ _ hv hcne]
            exact ih 2 (v % 16) 0 _ (by omega) hs (by omega)
          · rw [b64decodeLoop_step2 _ _ _ _ _ _ hv hcne]
            exact ih 3 (v % 4) 0 _ (by omega) hs (by omega)
          · rw [b64decodeLoop_step3 _ _ _ _ _ _ hv hcne]
            exact ih 0 0 0 _ (by omega) hs (by omega)

/-- C5 counterexample: `"QUJD!"` contains `!`, a character outside the
base64 alphabet, yet `decode_base64_authorization_header` does not return
`none` — `base64.b64decode` is called without `validate=True`, so
non-alphabet characters are discarded and the token decodes to `"ABC"`. -/
theorem decodeToken_nonalphabet_counterexample :
    decode_base64_authorization_header (PyVal.str ("QUJD!".data)) =
      some ("ABC".data) ∧
    decode_base64_authorization_header (PyVal.str ("QUJD!".data)) ≠
      Option.none := by
  refine ⟨by decide, by decide⟩

/-- C5 amended: `decode_base64_authorization_header` returns `none` (and
never raises — it is total by construction) when the token contains a
non-ASCII character, or when — with no padding character present — the
number of base64-alphabet characters in it is not a multiple of 4 (the
`Incorrect padding` errors), or when the base64-decoded bytes are not valid
UTF-8; characters outside the alphabet are discarded, not rejected. -/
theorem decodeToken_failure_modes (s : List Char) :
    ((∃ c ∈ s, 128 ≤ c.toNat) →
      decode_base64_authorization_header (PyVal.str s) = Option.none) ∧
    ('=' ∉ s →
      s.countP (fun c => (b64decodeChar c).isSome) % 4 ≠ 0 →
      decode_base64_authorization_header (PyVal.str s) = Option.none) ∧
    (∀ bs, b64decodePy s = some bs → utf8Decode bs = Option.none →
      decode_base64_authorization_header (PyVal.str s) = Option.none) := by
  refine ⟨fun hna => ?_, fun hpad hmod => ?_, fun bs hbs hdec => ?_⟩
  · obtain ⟨c, hcs, hc⟩ := hna
    have hall : s.all (fun c => c.toNat < 128) = false :=
      List.all_eq_false.mpr ⟨c, hcs, by simp; omega⟩
    rw [decode_base64_authorization_header, b64decodePy, hall]
    rfl
  · by_cases hall : s.all (fun c => c.toNat < 128) = true
    · rw [decode_base64_authorization_header, b64decodePy, hall, if_pos rfl]
      rw [b64decodeLoop_none_of_bad_count s 0 0 0 [] (by omega) hpad
        (by simpa using hmod)]
    · rw [decode_base64_authorization_header, b64decodePy,
        Bool.eq_false_iff.mpr hall]
      rfl
  · rw [decode_base64_authorization_header, hbs]
    dsimp only
    rw [hdec]

/-- C5 amended witness: a non-ASCII token, the spec's
`"not-valid-base64!!"` bad-padding token (14 alphabet characters), and a
token decoding to the invalid UTF-8 byte `0xFF`, all yield `none`. -/
theorem decodeToken_failure_modes_witness :
    decode_base64_authorization_header (PyVal.str ("é".data)) = Option.none ∧
    decode_base64_authorization_header
      (PyVal.str ("not-valid-base64!!".data)) = Option.none ∧
    decode_base64_authorization_header (PyVal.str ("/w==".data)) =
      Option.none :=
  ⟨(decodeToken_failure_modes ("é".data)).1 (by decide),
   (decodeToken_failure_modes ("not-valid-base64!!".data)).2.1 (by decide)
      (by decide),
   (decodeToken_failure_modes ("/w==".data)).2.2 [255] (by decide) (by decide)⟩

/-! ### filtered_logger.filter_datum

`filter_datum(fields, redaction, message, separator)` runs
`re.sub(rf'({"|".join(fields)})=[^{separator}]+',
        lambda m: f'{m.group(1)}={redaction}', message)`.
The pattern is a literal alternation of the field names followed by `=` and
a greedy non-empty run of non-separator characters; `re.sub` replaces the
leftmost matches, scanning left to right without overlap, and the
alternation tries its branches in the order of the field list.  Note that
`"|".join([])` is the empty string, so an empty field list produces the
pattern `()=[^sep]+`, whose group is a single empty alternative. -/

/-- One alternative tried at the start of `s`: the field name `f` must be a
literal prefix, followed by `=` and a non-empty maximal run of
non-separator characters (the greedy `[^sep]+` with nothing after it in the
pattern).  Returns the run and the remainder of the string. -/
def matchField (sep : Char) (f s : List Char) :
    Option (List Char × List Char) :=
  if s.take f.length = f then
    match s.drop f.length with
    | '=' :: u =>
        if (u.takeWhile (fun c => !(c == sep))).isEmpty then Option.none
        else some (u.takeWhile (fun c => !(c == sep)),
          u.dropWhile (fun c => !(c == sep)))
    | _ => Option.none
  else Option.none

/-- The alternation `(f1|f2|...)`: alternatives are tried left to right;
the first whose complete match succeeds at this position wins, yielding
the captured group, the run, and the remainder. -/
def matchAlt (sep : Char) :
    List (List Char) → List Char → Option (List Char × List Char × List Char)
  | [], _ => Option.none
  | f :: fs, s =>
      match matchField sep f s with
      | some pr => some (f, pr.1, pr.2)
      | Option.none => matchAlt sep fs s

theorem matchField_rest_lt (sep : Char) (f s run rest : List Char)
    (h : matchField sep f s = some (run, rest)) : rest.length < s.length := by
  rw [matchField] at h
  split_ifs at h with hpre
  split at h
  case _ =>
    rename_i u heq
    split_ifs at h with hemp
    have hrun : 0 < (u.takeWhile (fun c => !(c == sep))).length := by
      cases hh : u.takeWhile (fun c => !(c == sep)) with
      | nil => rw [hh] at hemp; exact absurd rfl hemp
      | cons x xs => simp [hh]
    have hsplit : (u.takeWhile (fun c => !(c == sep))).length +
        (u.dropWhile (fun c => !(c == sep))).length = u.length := by
      conv_rhs => rw [← List.takeWhile_append_dropWhile
        (fun c => !(c == sep)) u]
      rw [List.length_append]
    have hdroplen : (s.drop f.length).length = u.length + 1 := by
      rw [heq]; rfl
    rw [List.length_drop] at hdroplen
    have h4 : u.dropWhile (fun c => !(c == sep)) = rest :=
      congrArg Prod.snd (Option.some.inj h)
    rw [← h4]
    omega
  case _ => exact absurd h (by simp)

theorem matchAlt_rest_lt (sep : Char) (fs : List (List Char))
    (s f run rest : List Char)
    (h : matchAlt sep fs s = some (f, run, rest)) : rest.length < s.length := by
  induction fs with
  | nil => exact absurd h (by simp [matchAlt])
  | cons g gs ih =>
      rw [matchAlt] at h
      cases hm : matchField sep g s with
      | none => rw [hm] at h; exact ih h
      | some pr =>
          rw [hm] at h
          obtain ⟨r0, rst⟩ := pr
          have h3 : rest = rst := congrArg (Prod.snd ∘ Prod.snd)
            (Option.some.inj h) |>.symm
          exact h3 ▸ matchField_rest_lt sep g s r0 rst hm

/-- The `re.sub` scan: walk the message left to right; at each position
try the alternation, on a match emit `group(1) ++ "=" ++ redaction` and
resume after the match (matches never overlap), otherwise copy one
character.  `fuel` bounds the recursion depth; every match consumes at
least two characters, so `message.length` fuel always suffices. -/
def reSubScan (alts : List (List Char)) (red : List Char) (sep : Char) :
    Nat → List Char → List Char
  | _, [] => []
  | 0, c :: tl => c :: tl
  | fuel + 1, c :: tl =>
      match matchAlt sep alts (c :: tl) with
      | some pr => pr.1 ++ '=' :: (red ++ reSubScan alts red sep fuel pr.2.2)
      | Option.none => c :: reSubScan alts red sep fuel tl

/-- filter_datum: build the alternation from the field list (an empty list
joins to the empty pattern, i.e. one empty alternative) and substitute
every leftmost non-overlapping match of `(alts)=[^sep]+` in the message. -/
def filter_datum (fields : List (List Char)) (redaction : List Char)
    (message : List Char) (separator : Char) : List Char :=
  reSubScan (if fields = [] then [[]] else fields) redaction separator
    message.length message

/-- The leftmost position in `s` at which the alternation matches: the
spec-side description of where `re.sub` performs its next substitution. -/
def leftmostIdx (alts : List (List Char)) (sep : Char) (s : List Char) :
    Option Nat :=
  (List.range s.length).find? (fun i => (matchAlt sep alts (s.drop i)).isSome)

/-- The amended claim's reference transformation: repeatedly locate the
leftmost match of the alternation-`=`-run pattern (`leftmostIdx`), keep
every character before it, replace the matched `field=run` by
`field=redaction`, and continue after the match; a string with no match
anywhere is unchanged. -/
def specFilter (alts : List (List Char)) (red : List Char) (sep : Char) :
    Nat → List Char → List Char
  | _, [] => []
  | 0, c :: tl => c :: tl
  | fuel + 1, c :: tl =>
      match leftmostIdx alts sep (c :: tl) with
      | Option.none => c :: tl
      | some i =>
          match matchAlt sep alts ((c :: tl).drop i) with
          | Option.none => c :: tl
          | some pr =>
              (c :: tl).take i ++ pr.1 ++ '=' ::
                (red ++ specFilter alts red sep fuel pr.2.2)

theorem specFilter_of_idx_none (alts : List (List Char)) (red : List Char)
    (sep : Char) (n : Nat) (s : List Char)
    (h : leftmostIdx alts sep s = Option.none) :
    specFilter alts red sep n s = s := by
  cases n with
  | zero => cases s <;> rfl
  | succ n =>
      cases s with
      | nil => rfl
      | cons c tl => rw [specFilter, h]

theorem specFilter_fuel_congr (alts : List (List Char)) (red : List Char)
    (sep : Char) :
    ∀ n m s, s.length ≤ n → s.length ≤ m →
      specFilter alts red sep n s = specFilter alts red sep m s := by
  intro n
  induction n with
  | zero =>
      intro m s hn _
      have hs : s = [] := List.eq_nil_of_length_eq_zero (by omega)
      subst hs
      cases m <;> rfl
  | succ n ih =>
      intro m s hn hm
      cases s with
      | nil => cases m <;> rfl
      | cons c tl =>
          cases m with
          | zero => simp at hm
          | succ m =>
              simp only [List.length_cons] at hn hm
              rw [specFilter, specFilter]
              cases hidx : leftmostIdx alts sep (c :: tl) with
              | none => rfl
              | some i =>
                  dsimp only
                  cases hm2 : matchAlt sep alts ((c :: tl).drop i) with
                  | none => rfl
                  | some pr =>
                      dsimp only
                      have hlt : pr.2.2.length < ((c :: tl).drop i).length :=
                        matchAlt_rest_lt sep alts _ pr.1 pr.2.1 pr.2.2 hm2
                      have hdl : ((c :: tl).drop i).length ≤ tl.length + 1 := by
                        rw [List.length_drop, List.length_cons]
                        omega
                      rw [ih m pr.2.2 (by omega) (by omega)]

theorem reSubScan_eq_specFilter (alts : List (List Char)) (red : List Char)
    (sep : Char) :
    ∀ n s, s.length ≤ n →
      reSubScan alts red sep n s = specFilter alts red sep n s := by
  intro n
  induction n with
  | zero =>
      intro s hn
      have hs : s = [] := List.eq_nil_of_length_eq_zero (by omega)
      subst hs
      rfl
  | succ n ih =>
      intro s hn
      cases s with
      | nil => rfl
      | cons c tl =>
          simp only [List.length_cons] at hn
          rw [reSubScan, specFilter]
          cases hm : matchAlt sep alts (c :: tl) with
          | some pr =>
              dsimp only
              have hidx : leftmostIdx alts sep (c :: tl) = some 0 := by
                simp only [leftmostIdx, List.length_cons,
                  List.range_succ_eq_map]
                apply List.find?_cons_of_pos
                simp [hm]
              rw [hidx]
              dsimp only
              rw [List.drop_zero, hm]
              dsimp only
              have hlt : pr.2.2.length < (c :: tl).length :=
                matchAlt_rest_lt sep alts _ pr.1 pr.2.1 pr.2.2 hm
              simp only [List.length_cons] at hlt
              rw [ih pr.2.2 (by omega)]
              simp
          | none =>
              dsimp only
              have hidx : leftmostIdx alts sep (c :: tl) =
                  Option.map Nat.succ (leftmostIdx alts sep tl) := by
                simp only [leftmostIdx, List.length_cons,
                  List.range_succ_eq_map]
                rw [List.find?_cons_of_neg _ (by simp [hm])]
                rw [List.find?_map]
                congr 1
              rw [hidx]
              cases hL : leftmostIdx alts sep tl with
              | none =>
                  simp only [Option.map_none']
                  rw [ih tl (by omega)]
                  rw [specFilter_of_idx_none alts red sep n tl hL]
              | some j =>
                  simp only [Option.map_some']
                  have hj : j < tl.length := by
                    have hmem := List.mem_of_find?_eq_some
                      (show (List.range tl.length).find?
                        (fun i => (matchAlt sep alts (tl.drop i)).isSome) =
                        some j from hL)
                    exact List.mem_range.mp hmem
                  have hpj : (matchAlt sep alts (tl.drop j)).isSome = true := by
                    have hb := List.find?_some
                      (show (List.range tl.length).find?
                        (fun i => (matchAlt sep alts (tl.drop i)).isSome) =
                        some j from hL)
                    simpa using hb
                  obtain ⟨pr2, hm2⟩ := Option.isSome_iff_exists.mp hpj
                  rw [show (c :: tl).drop (Nat.succ j) = tl.drop j from
                    List.drop_succ_cons, hm2]
                  dsimp only
                  rw [show (c :: tl).take (Nat.succ j) = c :: tl.take j from
                    List.take_succ_cons]
                  rw [ih tl (by omega)]
                  cases n with
                  | zero => omega
                  | succ n2 =>
                      cases tl with
                      | nil => simp at hj
                      | cons d tl2 =>
                          rw [specFilter, hL]
                          dsimp only
                          rw [hm2]
                          dsimp only
                          have hlt : pr2.2.2.length <
                              ((d :: tl2).drop j).length :=
                            matchAlt_rest_lt sep alts _ pr2.1 pr2.2.1 pr2.2.2
                              hm2
                          have hdl : ((d :: tl2).drop j).length ≤
                              tl2.length + 1 := by
                            rw [List.length_drop, List.length_cons]
                            omega
                          simp only [List.length_cons] at hn
                          rw [specFilter_fuel_congr alts red sep n2 (n2 + 1)
                            pr2.2.2 (by omega) (by omega)]
                          simp

/-- The amended claim's transformation packaged over the raw `fields`
argument: join the fields into the alternation (an empty list gives the
single empty alternative) and rewrite the leftmost matches one after the
other. -/
def specFilterLeftmost (fields : List (List Char)) (redaction : List Char)
    (message : List Char) (separator : Char) : List Char :=
  specFilter (if fields = [] then [[]] else fields) redaction separator
    message.length message

/-- C10 counterexample: with an empty field list the claim requires the
message to be left unchanged (there is no listed field to replace), but
`"|".join([])` yields the pattern `()=[^;]+` whose empty alternative
matches, so `filter_datum` rewrites `"x=y;"` to `"x=***;"`. -/
theorem filter_datum_empty_fields_counterexample :
    filter_datum [] ("***".data) ("x=y;".data) ';' = "x=***;".data ∧
    filter_datum [] ("***".data) ("x=y;".data) ';' ≠ "x=y;".data := by
  exact ⟨by decide, by decide⟩

/-- C10 amended: `filter_datum` performs leftmost, non-overlapping
rewriting — it equals the reference transformation that repeatedly finds
the least position where some listed field name (the first in list order;
the empty name when the field list is empty) occurs followed by `=` and a
maximal non-empty run of non-separator characters, replaces that
occurrence by the field name, `=`, and the redaction, and continues after
it, leaving every character outside the replaced occurrences unchanged. -/
theorem filter_datum_eq_leftmost_rewrite (fields : List (List Char))
    (redaction message : List Char) (separator : Char) :
    filter_datum fields redaction message separator =
      specFilterLeftmost fields redaction message separator :=
  reSubScan_eq_specFilter (if fields = [] then [[]] else fields) redaction
    separator message.length message (le_refl _)
